import Mathlib

/-!
Shallow embedding of the NanoBuffer circular buffer (`src/index.js`) and
verification of its behavioural properties.

Modelling conventions:
* a backing-array slot holds `Option α`; `none` models an absent slot
  (a JS hole, read back as `undefined`);
* JS numbers passed as size/offset arguments are modelled by `JNum`
  (a genuine integer, `NaN`, or a non-number value); thrown `TypeError` /
  `RangeError` become `JErr`;
* the mutable object becomes explicit state passing on `RingStore`.
-/

/-- JS values passed where the code expects a number: an actual integer,
`NaN`, or a non-number value. -/
inductive JNum : Type where
  | num (n : Int)
  | nan
  | notNum
  deriving DecidableEq

/-- The two kinds of exception the code throws: `TypeError` and `RangeError`. -/
inductive JErr : Type where
  | typeError
  | rangeError
  deriving DecidableEq

instance {ε α : Type} [DecidableEq ε] [DecidableEq α] : DecidableEq (Except ε α) :=
  fun a b =>
    match a, b with
    | .error e, .error f =>
      if h : e = f then .isTrue (by rw [h])
      else .isFalse (by intro hc; cases hc; exact h rfl)
    | .error _, .ok _ => .isFalse (by intro hc; cases hc)
    | .ok _, .error _ => .isFalse (by intro hc; cases hc)
    | .ok x, .ok y =>
      if h : x = y then .isTrue (by rw [h])
      else .isFalse (by intro hc; cases hc; exact h rfl)

/-- State of a NanoBuffer: the fields `_buffer`, `_head`, `_maxSize`, `_size`. -/
structure RingStore (α : Type) : Type where
  buffer : List (Option α)
  head : Int
  maxSize : Nat
  size : Nat
  deriving DecidableEq

/-- Reading `l[j]` as JS does: negative or out-of-range indices give
`undefined` (`none`). -/
def jsGet {α : Type} (l : List (Option α)) (j : Int) : Option α :=
  if j < 0 then none else l.getD j.toNat none

/-- Writing `l[j] = v` (for `v = none`: `delete l[j]`).  Indices outside the
array, which the code never produces on well-formed states, leave the list
unchanged. -/
def jsSet {α : Type} (l : List (Option α)) (j : Int) (v : Option α) : List (Option α) :=
  if j < 0 then l else l.set j.toNat v

/-- Construction `new NanoBuffer(c)` for a number `c ≥ 0`: backing `Array(c)`
(all slots absent), `head = 0`, `size = 0`, `maxSize = c`. -/
def mkEmpty (α : Type) (c : Nat) : RingStore α :=
  { buffer := List.replicate c none, head := 0, maxSize := c, size := 0 }

/-- Transcription of `push(value)` (src/index.js lines 428-449). -/
def push {α : Type} (s : RingStore α) (value : Option α) : RingStore α :=
  if s.maxSize ≠ 0 then
    let head1 : Int := if 0 < s.size then s.head + 1 else s.head
    let head2 : Int := if (s.maxSize : Int) ≤ head1 then 0 else head1
    let size2 : Nat := min (s.size + 1) s.maxSize
    let currentValue : Option α := jsGet s.buffer head2
    let buffer2 : List (Option α) :=
      if value.isSome then jsSet s.buffer head2 value
      else if currentValue.isSome then jsSet s.buffer head2 none
      else s.buffer
    { buffer := buffer2, head := head2, maxSize := s.maxSize, size := size2 }
  else s

/-- Transcription of `pop()` (src/index.js lines 400-419): the popped value
(`none` on the empty / zero-capacity paths) together with the new state. -/
def pop {α : Type} (s : RingStore α) : Option α × RingStore α :=
  if s.maxSize ≠ 0 ∧ 0 < s.size then
    let currentIndex : Int := s.head
    let currentValue : Option α := jsGet s.buffer currentIndex
    let ret : Option α := jsGet s.buffer s.head
    let head1 : Int := s.head - 1
    let head2 : Int := if head1 < 0 then head1 + s.maxSize else head1
    let size2 : Nat := s.size - 1
    let buffer2 : List (Option α) :=
      if currentValue.isSome then jsSet s.buffer currentIndex none else s.buffer
    (ret, { buffer := buffer2, head := head2, maxSize := s.maxSize, size := size2 })
  else (none, s)

/-- Transcription of `top(index)` (src/index.js lines 460-481). -/
def top {α : Type} (s : RingStore α) (index : JNum) : Except JErr (Option α) :=
  match index with
  | .notNum => .error .typeError
  | .nan => .error .rangeError
  | .num i =>
    if (s.size = 0 ∧ s.head = 0) ∨ (s.size : Int) ≤ i then .ok none
    else
      let idx0 : Int := s.head
      let idx : Int :=
        if 0 < i then
          let t : Int := idx0 - i
          if t < 0 then t + s.maxSize else t
        else idx0
      .ok (jsGet s.buffer idx)

/-- Transcription of `_calculateGetIndex(index)` (src/index.js lines 483-504). -/
def calculateGetIndex {α : Type} (s : RingStore α) (index : JNum) : Except JErr (Option Int) :=
  match index with
  | .notNum => .error .typeError
  | .nan => .error .rangeError
  | .num i =>
    if (s.size = 0 ∧ s.head = 0) ∨ (s.size : Int) ≤ i ∨ i < 0 then .ok none
    else
      let idx0 : Int := s.head - s.size + 1
      let idx1 : Int := if 0 < i then idx0 + i else idx0
      let idx2 : Int := if idx1 < 0 then idx1 + s.maxSize else idx1
      .ok (some idx2)

/-- Transcription of `bottom(index)` (src/index.js lines 514-521). -/
def bottom {α : Type} (s : RingStore α) (index : JNum) : Except JErr (Option α) :=
  match calculateGetIndex s index with
  | .error e => .error e
  | .ok none => .ok none
  | .ok (some idx) => .ok (jsGet s.buffer idx)

/-- Transcription of `poke(value, index)` (src/index.js lines 532-542). -/
def poke {α : Type} (s : RingStore α) (value : Option α) (index : JNum) :
    Except JErr (RingStore α) :=
  match calculateGetIndex s index with
  | .error e => .error e
  | .ok none => .ok s
  | .ok (some idx) =>
    .ok { s with buffer :=
      if value.isSome then jsSet s.buffer idx value else jsSet s.buffer idx none }

/-- One call of the iterator's `next()` (src/index.js lines 566-592): from the
cursor `i`, the yielded value (`none` once done) and the new cursor. -/
def iterNext {α : Type} (s : RingStore α) (back : Bool) (i : Int) :
    Option (Option α) × Int :=
  let i2 : Int := min i (s.maxSize : Int)
  let j0 : Int := if back then s.head - i2 else s.head + i2 - ((s.size : Int) - 1)
  let j : Int := if j0 < 0 then j0 + s.maxSize else j0
  if (s.size : Int) ≤ i2 then (none, i2 + 1) else (some (jsGet s.buffer j), i2 + 1)

/-- Values yielded by repeatedly calling `next()` on an otherwise unmutated
store; `fuel` bounds the number of calls. -/
def iterCollect {α : Type} (s : RingStore α) (back : Bool) : Nat → Int → List (Option α)
  | 0, _ => []
  | fuel + 1, i =>
    match iterNext s back i with
    | (none, _) => []
    | (some v, i2) => v :: iterCollect s back fuel i2

/-- The sequence yielded by `[Symbol.iterator](back, startFrom)` over an
unmutated store; `s.size + 1` calls of `next()` suffice for every traversal
that starts at a non-negative cursor. -/
def iterList {α : Type} (s : RingStore α) (back : Bool) (startFrom : Int) :
    List (Option α) :=
  let i0 : Int := if startFrom < 0 then (s.maxSize : Int) + startFrom else startFrom
  iterCollect s back (s.size + 1) i0

/-- Transcription of `set maxSize(newMaxSize)` (src/index.js lines 355-382):
the state after the call together with the thrown error, if any.  The code
validates before mutating, so a throwing call leaves the state as it was; a
successful resize replays the forward traversal into a fresh store and adopts
all four of its fields. -/
def setMaxSize {α : Type} (s : RingStore α) (newMaxSize : JNum) :
    RingStore α × Option JErr :=
  match newMaxSize with
  | .notNum => (s, some .typeError)
  | .nan => (s, some .rangeError)
  | .num n =>
    if n < 0 then (s, some .rangeError)
    else if n = (s.maxSize : Int) then (s, none)
    else (List.foldl push (mkEmpty α n.toNat) (iterList s false 0), none)

/-- Pushing a whole list of values, oldest first, into a fresh store of
capacity `c`. -/
def pushAll (α : Type) (c : Nat) (l : List (Option α)) : RingStore α :=
  List.foldl push (mkEmpty α c) l

/-- The physical index the iterator reads at cursor value `m`; agrees with
`iterNext` whenever `m ≤ maxSize`, where the clamp is a no-op. -/
def iterIdx {α : Type} (s : RingStore α) (back : Bool) (m : Nat) : Int :=
  let j0 : Int :=
    match back with
    | true => s.head - m
    | false => s.head + m - ((s.size : Int) - 1)
  if j0 < 0 then j0 + s.maxSize else j0

/-- The slot `push` writes to: `head` advanced by one (when the store is
non-empty) and wrapped to 0 at `maxSize`. -/
def pushHead2 {α : Type} (s : RingStore α) : Int :=
  if (s.maxSize : Int) ≤ (if 0 < s.size then s.head + 1 else s.head) then 0
  else (if 0 < s.size then s.head + 1 else s.head)

/-- The head index after a successful `pop`: one step back, wrapped. -/
def popHead2 {α : Type} (s : RingStore α) : Int :=
  if s.head - 1 < 0 then s.head - 1 + (s.maxSize : Int) else s.head - 1

/-- Well-formedness: the backing array has length `maxSize`, `size ≤ maxSize`,
and `head` is a valid slot index (0 when `maxSize = 0`).  Every store reachable
from an empty store through the mutators satisfies this. -/
def wf {α : Type} (s : RingStore α) : Prop :=
  s.buffer.length = s.maxSize ∧ s.size ≤ s.maxSize ∧
    0 ≤ s.head ∧ s.head < ((max 1 s.maxSize : Nat) : Int)

instance {α : Type} (s : RingStore α) : Decidable (wf s) := by
  unfold wf; infer_instance

example : (pushAll Nat 2 [some 5, some 6, some 7]).head = 0 := by decide
example : (pushAll Nat 2 [some 5, some 6, some 7]).size = 2 := by decide
example : wf (pushAll Nat 2 [some 5, some 6, some 7]) := by decide
example : top (pushAll Nat 2 [some 5, some 6, some 7]) (.num 0) = .ok (some 7) := by decide
example : top (pushAll Nat 2 [some 5, some 6, some 7]) (.num (-1)) = .ok (some 7) := by decide
example : bottom (pushAll Nat 2 [some 5, some 6, some 7]) (.num 0) = .ok (some 6) := by decide
example : iterList (pushAll Nat 2 [some 5, some 6, some 7]) false 0 = [some 6, some 7] := by
  decide
example : iterList (pushAll Nat 2 [some 5, some 6, some 7]) true 0 = [some 7, some 6] := by
  decide
example : (pop (pushAll Nat 2 [some 5, some 6, some 7])).1 = some 7 := by decide
example :
    (setMaxSize (pushAll Nat 3 [some 1, some 2, some 3, some 4]) (.num 2)).1.size = 2 := by
  decide
example :
    iterList (setMaxSize (pushAll Nat 3 [some 1, some 2, some 3, some 4]) (.num 2)).1
      false 0 = [some 3, some 4] := by decide

theorem length_jsSet {α : Type} (l : List (Option α)) (j : Int) (v : Option α) :
    (jsSet l j v).length = l.length := by
  unfold jsSet; split
  · rfl
  · exact List.length_set ..

theorem jsGet_jsSet_self {α : Type} (l : List (Option α)) (j : Int) (v : Option α)
    (hj : 0 ≤ j) (hlen : j.toNat < l.length) : jsGet (jsSet l j v) j = v := by
  have hj0 : ¬ j < 0 := by omega
  simp only [jsGet, jsSet, if_neg hj0]
  simp [List.getElem?_set_self hlen]

theorem jsGet_jsSet_ne {α : Type} (l : List (Option α)) (j k : Int) (v : Option α)
    (hne : k ≠ j) : jsGet (jsSet l j v) k = jsGet l k := by
  unfold jsGet jsSet
  by_cases hj : j < 0
  · simp [if_pos hj]
  · simp only [if_neg hj]
    by_cases hk : k < 0
    · simp [if_pos hk]
    · simp only [if_neg hk]
      have hne2 : j.toNat ≠ k.toNat := by omega
      simp [List.getElem?_set_ne hne2]

theorem push_zero {α : Type} (s : RingStore α) (v : Option α) (h : s.maxSize = 0) :
    push s v = s := by
  unfold push; rw [if_neg (by omega)]

theorem foldl_push_zero {α : Type} (l : List (Option α)) :
    ∀ s : RingStore α, s.maxSize = 0 → List.foldl push s l = s := by
  induction l with
  | nil => intro s _; rfl
  | cons v l ih =>
    intro s h
    rw [List.foldl_cons, push_zero s v h]
    exact ih s h

theorem pop_noop {α : Type} (s : RingStore α) (h : s.maxSize = 0 ∨ s.size = 0) :
    pop s = (none, s) := by
  rcases h with h | h <;> (unfold pop; rw [if_neg (by omega)])

theorem push_eq_pos {α : Type} (s : RingStore α) (v : Option α) (hM : s.maxSize ≠ 0) :
    push s v =
      { buffer :=
          (if v.isSome then jsSet s.buffer (pushHead2 s) v
           else if (jsGet s.buffer (pushHead2 s)).isSome then
             jsSet s.buffer (pushHead2 s) none
           else s.buffer),
        head := pushHead2 s, maxSize := s.maxSize,
        size := min (s.size + 1) s.maxSize } := by
  unfold push pushHead2
  rw [if_pos hM]

theorem wf_head_lt {α : Type} (s : RingStore α) (hwf : wf s) (hM : 0 < s.maxSize) :
    s.head < (s.maxSize : Int) := by
  obtain ⟨-, -, -, hh1⟩ := hwf
  push_cast at hh1
  omega

theorem pushHead2_bounds {α : Type} (s : RingStore α) (hwf : wf s) (hM : 0 < s.maxSize) :
    0 ≤ pushHead2 s ∧ pushHead2 s < (s.maxSize : Int) := by
  have hh1 := wf_head_lt s hwf hM
  obtain ⟨-, -, hh0, -⟩ := hwf
  unfold pushHead2
  constructor <;> (split_ifs <;> omega)

theorem push_char {α : Type} (s : RingStore α) (v : Option α) (hwf : wf s)
    (hM : 0 < s.maxSize) :
    (push s v).maxSize = s.maxSize ∧
    (push s v).buffer.length = s.buffer.length ∧
    (push s v).size = min (s.size + 1) s.maxSize ∧
    (push s v).head = pushHead2 s ∧
    ∀ j : Int, jsGet (push s v).buffer j =
      if j = pushHead2 s then v else jsGet s.buffer j := by
  obtain ⟨hb0, hb1⟩ := pushHead2_bounds s hwf hM
  have hlen : s.buffer.length = s.maxSize := hwf.1
  have hlt : (pushHead2 s).toNat < s.buffer.length := by omega
  rw [push_eq_pos s v (by omega)]
  refine ⟨rfl, ?_, rfl, rfl, ?_⟩
  · dsimp only
    split
    · exact length_jsSet ..
    · split
      · exact length_jsSet ..
      · rfl
  · intro j
    dsimp only
    by_cases hj : j = pushHead2 s
    · subst hj
      rw [if_pos rfl]
      split
      · exact jsGet_jsSet_self _ _ _ hb0 hlt
      · next hv =>
        have hv0 : v = none := by
          cases v with
          | some w => simp at hv
          | none => rfl
        subst hv0
        split
        · exact jsGet_jsSet_self _ _ _ hb0 hlt
        · next hcv =>
          cases hg : jsGet s.buffer (pushHead2 s) with
          | some w => rw [hg] at hcv; simp at hcv
          | none => rfl
    · rw [if_neg hj]
      split
      · exact jsGet_jsSet_ne _ _ _ _ hj
      · split
        · exact jsGet_jsSet_ne _ _ _ _ hj
        · rfl

theorem pop_eq_pos {α : Type} (s : RingStore α) (hM : s.maxSize ≠ 0) (hsz : 0 < s.size) :
    pop s =
      (jsGet s.buffer s.head,
       { buffer :=
           (if (jsGet s.buffer s.head).isSome then jsSet s.buffer s.head none
            else s.buffer),
         head := popHead2 s, maxSize := s.maxSize, size := s.size - 1 }) := by
  unfold pop popHead2
  rw [if_pos ⟨hM, hsz⟩]

theorem pop_char {α : Type} (s : RingStore α) (hwf : wf s) (hsz : 0 < s.size) :
    (pop s).1 = jsGet s.buffer s.head ∧
    (pop s).2.maxSize = s.maxSize ∧
    (pop s).2.buffer.length = s.buffer.length ∧
    (pop s).2.size = s.size - 1 ∧
    (pop s).2.head = popHead2 s ∧
    (0 ≤ popHead2 s ∧ popHead2 s < (s.maxSize : Int)) ∧
    ∀ j : Int, jsGet (pop s).2.buffer j = if j = s.head then none else jsGet s.buffer j := by
  have hM : 0 < s.maxSize := by
    obtain ⟨-, h2, -, -⟩ := hwf
    omega
  have hh1 := wf_head_lt s hwf hM
  obtain ⟨hlen, -, hh0, -⟩ := hwf
  have hbnd : 0 ≤ popHead2 s ∧ popHead2 s < (s.maxSize : Int) := by
    unfold popHead2
    constructor <;> (split_ifs <;> omega)
  have hlt : s.head.toNat < s.buffer.length := by omega
  rw [pop_eq_pos s (by omega) hsz]
  refine ⟨rfl, rfl, ?_, rfl, rfl, hbnd, ?_⟩
  · dsimp only
    split
    · exact length_jsSet ..
    · rfl
  · intro j
    dsimp only
    by_cases hj : j = s.head
    · subst hj
      rw [if_pos rfl]
      split
      · exact jsGet_jsSet_self _ _ _ hh0 hlt
      · next hcv =>
        cases hg : jsGet s.buffer s.head with
        | some w => rw [hg] at hcv; simp at hcv
        | none => rfl
    · rw [if_neg hj]
      split
      · exact jsGet_jsSet_ne _ _ _ _ hj
      · rfl

theorem mkEmpty_wf (α : Type) (c : Nat) : wf (mkEmpty α c) := by
  refine ⟨by simp [mkEmpty], by simp [mkEmpty], by simp [mkEmpty], ?_⟩
  simp only [mkEmpty]
  push_cast
  omega

theorem push_wf {α : Type} (s : RingStore α) (v : Option α) (hwf : wf s) :
    wf (push s v) := by
  by_cases hM : s.maxSize = 0
  · rw [push_zero s v hM]; exact hwf
  · obtain ⟨c1, c2, c3, c4, -⟩ := push_char s v hwf (by omega)
    obtain ⟨hb0, hb1⟩ := pushHead2_bounds s hwf (by omega)
    refine ⟨by rw [c2, hwf.1, c1], by rw [c3, c1]; omega, by rw [c4]; exact hb0, ?_⟩
    rw [c4, c1]
    push_cast
    omega

theorem pop_wf {α : Type} (s : RingStore α) (hwf : wf s) : wf (pop s).2 := by
  by_cases hsz : 0 < s.size
  · obtain ⟨c1, c2, c3, c4, c5, ⟨hb0, hb1⟩, -⟩ := pop_char s hwf hsz
    obtain ⟨h1, h2, h3, h4⟩ := hwf
    refine ⟨by rw [c3, h1, c2], by rw [c4, c2]; omega, by rw [c5]; exact hb0, ?_⟩
    rw [c5, c2]
    push_cast
    omega
  · rw [pop_noop s (Or.inr (by omega))]
    exact hwf

theorem iterNext_done {α : Type} (s : RingStore α) (back : Bool) (i : Int)
    (hM : s.size ≤ s.maxSize) (hi : (s.size : Int) ≤ i) :
    iterNext s back i = (none, min i (s.maxSize : Int) + 1) := by
  unfold iterNext
  rw [if_pos (by omega)]

theorem iterNext_yield {α : Type} (s : RingStore α) (back : Bool) (i : Nat) (hwf : wf s)
    (hi : i < s.size) :
    iterNext s back (i : Int) =
      (some (jsGet s.buffer (iterIdx s back i)), (i : Int) + 1) := by
  have h2 : s.size ≤ s.maxSize := hwf.2.1
  unfold iterNext iterIdx
  have hmin : min (i : Int) (s.maxSize : Int) = (i : Int) := by omega
  rw [hmin, if_neg (by omega)]
  cases back <;> rfl

theorem iterCollect_succ {α : Type} (s : RingStore α) (back : Bool) (f : Nat) (j : Int) :
    iterCollect s back (f + 1) j =
      (match iterNext s back j with
       | (none, _) => []
       | (some v, i2) => v :: iterCollect s back f i2) := rfl

theorem iterCollect_eq {α : Type} (s : RingStore α) (back : Bool) (hwf : wf s) :
    ∀ (d i : Nat), i + d = s.size →
      iterCollect s back (d + 1) (i : Int) =
        (List.range d).map (fun k => jsGet s.buffer (iterIdx s back (i + k))) := by
  intro d
  induction d with
  | zero =>
    intro i hi
    rw [iterCollect_succ]
    rw [iterNext_done s back _ hwf.2.1 (by omega)]
    simp
  | succ d ih =>
    intro i hi
    rw [iterCollect_succ]
    rw [iterNext_yield s back i hwf (by omega)]
    have hcast : ((i : Int) + 1) = ((i + 1 : Nat) : Int) := by push_cast; ring
    rw [hcast]
    dsimp only
    rw [ih (i + 1) (by omega)]
    rw [List.range_succ_eq_map, List.map_cons, List.map_map]
    congr 1
    apply List.map_congr_left
    intro a _
    have harr : i + 1 + a = i + (a + 1) := by omega
    simp only [Function.comp_apply, Nat.succ_eq_add_one, harr]

theorem iterList_eq {α : Type} (s : RingStore α) (back : Bool) (hwf : wf s) :
    iterList s back 0 =
      (List.range s.size).map (fun k => jsGet s.buffer (iterIdx s back k)) := by
  unfold iterList
  rw [if_neg (by omega)]
  have h := iterCollect_eq s back hwf s.size 0 (by omega)
  simpa using h

theorem iterList_length {α : Type} (s : RingStore α) (back : Bool) (hwf : wf s) :
    (iterList s back 0).length = s.size := by
  rw [iterList_eq s back hwf]
  simp

theorem iterList_getD {α : Type} (s : RingStore α) (back : Bool) (hwf : wf s)
    (k : Nat) (hk : k < s.size) :
    (iterList s back 0).getD k none = jsGet s.buffer (iterIdx s back k) := by
  rw [iterList_eq s back hwf]
  rw [List.getD_eq_getElem _ _ (by simp [hk])]
  simp

theorem pushAll_append {α : Type} (c : Nat) (l : List (Option α)) (v : Option α) :
    pushAll α c (l ++ [v]) = push (pushAll α c l) v := by
  unfold pushAll
  rw [List.foldl_append]
  rfl

theorem pushAll_wf {α : Type} (c : Nat) (l : List (Option α)) : wf (pushAll α c l) := by
  induction l using List.reverseRecOn with
  | nil => exact mkEmpty_wf α c
  | append_singleton l v ih =>
    rw [pushAll_append]
    exact push_wf _ v ih

theorem pushAll_maxSize {α : Type} (c : Nat) (l : List (Option α)) :
    (pushAll α c l).maxSize = c := by
  induction l using List.reverseRecOn with
  | nil => rfl
  | append_singleton l v ih =>
    rw [pushAll_append]
    by_cases hM : c = 0
    · rw [push_zero _ v (by rw [ih, hM])]
      exact ih
    · rw [(push_char _ v (pushAll_wf c l) (by rw [ih]; omega)).1, ih]

theorem pushAll_size {α : Type} (c : Nat) (l : List (Option α)) :
    (pushAll α c l).size = min l.length c := by
  induction l using List.reverseRecOn with
  | nil => simp [pushAll, mkEmpty]
  | append_singleton l v ih =>
    rw [pushAll_append]
    by_cases hM : c = 0
    · rw [push_zero _ v (by rw [pushAll_maxSize, hM]), ih, hM]
      simp
    · rw [(push_char _ v (pushAll_wf c l) (by rw [pushAll_maxSize]; omega)).2.2.1,
        pushAll_maxSize, ih]
      simp only [List.length_append, List.length_singleton]
      omega

theorem pushAll_get {α : Type} (c : Nat) (l : List (Option α)) :
    ∀ k : Nat, k < (pushAll α c l).size →
      jsGet (pushAll α c l).buffer (iterIdx (pushAll α c l) false k) =
        l.getD (l.length - (pushAll α c l).size + k) none := by
  induction l using List.reverseRecOn with
  | nil =>
    intro k hk
    rw [pushAll_size] at hk
    simp at hk
  | append_singleton l v ih =>
    intro k hk
    rw [pushAll_append] at hk ⊢
    have hc : 0 < c := by
      by_contra hc0
      have h0 : c = 0 := by omega
      rw [push_zero _ v (by rw [pushAll_maxSize, h0]), pushAll_size, h0] at hk
      simp at hk
    have hwf := pushAll_wf c l
    have hM : (pushAll α c l).maxSize = c := pushAll_maxSize c l
    have hMpos : 0 < (pushAll α c l).maxSize := by omega
    obtain ⟨c1, c2, c3, c4, c5⟩ := push_char (pushAll α c l) v hwf hMpos
    obtain ⟨hb0, hb1⟩ := pushHead2_bounds (pushAll α c l) hwf hMpos
    have hh0 : 0 ≤ (pushAll α c l).head := hwf.2.2.1
    have hh1 : (pushAll α c l).head < ((pushAll α c l).maxSize : Int) :=
      wf_head_lt _ hwf hMpos
    have hsz : (pushAll α c l).size = min l.length c := pushAll_size c l
    have hs2 : (push (pushAll α c l) v).size = min ((pushAll α c l).size + 1) c := by
      rw [c3, hM]
    by_cases hlast : k = (push (pushAll α c l) v).size - 1
    · subst hlast
      have hge1 : 1 ≤ (push (pushAll α c l) v).size := by omega
      have hidx : iterIdx (push (pushAll α c l) v) false
          ((push (pushAll α c l) v).size - 1) = pushHead2 (pushAll α c l) := by
        simp only [iterIdx]
        rw [c4, c1, hM]
        split_ifs <;> omega
      rw [hidx, c5, if_pos rfl]
      simp only [List.length_append, List.length_singleton]
      have hIdxNat : l.length + 1 - (push (pushAll α c l) v).size +
          ((push (pushAll α c l) v).size - 1) = l.length := by omega
      rw [hIdxNat, List.getD_append_right _ _ _ _ (le_refl _)]
      simp
    · have hklt : k < (push (pushAll α c l) v).size - 1 := by omega
      set kOld := (pushAll α c l).size + 1 - (push (pushAll α c l) v).size + k with hkOld
      have hkOldlt : kOld < (pushAll α c l).size := by omega
      have hidx : iterIdx (push (pushAll α c l) v) false k =
          iterIdx (pushAll α c l) false kOld := by
        simp only [iterIdx]
        rw [c4, c1, hM]
        simp only [pushHead2]
        split_ifs <;> omega
      have hne : iterIdx (pushAll α c l) false kOld ≠ pushHead2 (pushAll α c l) := by
        simp only [iterIdx, pushHead2]
        split_ifs <;> omega
      rw [hidx, c5, if_neg hne, ih kOld hkOldlt]
      simp only [List.length_append, List.length_singleton]
      have hlt2 : l.length + 1 - (push (pushAll α c l) v).size + k < l.length := by omega
      rw [List.getD_append _ _ _ _ hlt2]
      have hIdxNat : l.length - (pushAll α c l).size + kOld =
          l.length + 1 - (push (pushAll α c l) v).size + k := by omega
      rw [hIdxNat]

theorem wrap_eq_emod (j M : Int) (hM : 0 < M) (h1 : -M ≤ j) (h2 : j < M) :
    (if j < 0 then j + M else j) = j % M := by
  split_ifs with h
  · have e1 : (j + M * 1) % M = j % M := Int.add_mul_emod_self_left j M 1
    rw [mul_one] at e1
    rw [← e1, Int.emod_eq_of_lt (by omega) (by omega)]
  · rw [Int.emod_eq_of_lt (by omega) (by omega)]

theorem top_eq_iterIdx {α : Type} (s : RingStore α) (hwf : wf s) (k : Nat)
    (hk : k < s.size) :
    top s (JNum.num k) = Except.ok (jsGet s.buffer (iterIdx s true k)) := by
  have hM : 0 < s.maxSize := by have := hwf.2.1; omega
  have hh0 : 0 ≤ s.head := hwf.2.2.1
  have hh1 := wf_head_lt s hwf hM
  simp only [top]
  rw [if_neg (by omega)]
  congr 1
  congr 1
  simp only [iterIdx]
  split_ifs <;> omega

theorem bottom_eq_iterIdx {α : Type} (s : RingStore α) (hwf : wf s) (k : Nat)
    (hk : k < s.size) :
    bottom s (JNum.num k) = Except.ok (jsGet s.buffer (iterIdx s false k)) := by
  have hM : 0 < s.maxSize := by have := hwf.2.1; omega
  have hh0 : 0 ≤ s.head := hwf.2.2.1
  have hh1 := wf_head_lt s hwf hM
  have hcalc : calculateGetIndex s (JNum.num k) = .ok (some (iterIdx s false k)) := by
    simp only [calculateGetIndex]
    rw [if_neg (by omega)]
    congr 2
    simp only [iterIdx]
    split_ifs <;> omega
  simp only [bottom, hcalc]

/-- C1: for every capacity `c` and every sequence of `n` pushed values, a fresh
empty store of capacity `c` ends with `size = min n c`; with capacity 0 every
sequence of pushes leaves the store equal to the fresh empty store, so `size`
and `headIndex` stay 0 throughout. -/
theorem claim1_push_size (α : Type) (c : Nat) (vs : List (Option α)) :
    (pushAll α c vs).size = min vs.length c ∧
    (∀ ws : List (Option α), pushAll α 0 ws = mkEmpty α 0) := by
  constructor
  · rw [pushAll_size]
  · intro ws
    exact foldl_push_zero ws (mkEmpty α 0) rfl

/-- C3: `pop` is a no-op returning absent when `size = 0` or `maxSize = 0`;
otherwise it returns the value in the slot at `headIndex`, clears that slot to
absent, decrements `size` (floored at 0, i.e. to `size - 1`), and moves
`headIndex` back one slot modulo `maxSize`. -/
theorem claim3_pop_spec (α : Type) (s : RingStore α) (hwf : wf s) :
    (s.size = 0 ∨ s.maxSize = 0 → pop s = (none, s)) ∧
    (0 < s.size →
      (pop s).1 = jsGet s.buffer s.head ∧
      jsGet (pop s).2.buffer s.head = none ∧
      (pop s).2.size = s.size - 1 ∧
      (pop s).2.head = (s.head - 1) % (s.maxSize : Int) ∧
      (pop s).2.maxSize = s.maxSize) := by
  constructor
  · intro h
    exact pop_noop s h.symm
  · intro hsz
    have hM : 0 < s.maxSize := by have := hwf.2.1; omega
    have hh0 : 0 ≤ s.head := hwf.2.2.1
    have hh1 := wf_head_lt s hwf hM
    obtain ⟨c1, c2, c3, c4, c5, ⟨hb0, hb1⟩, c6⟩ := pop_char s hwf hsz
    refine ⟨c1, ?_, c4, ?_, c2⟩
    · rw [c6 s.head, if_pos rfl]
    · rw [c5]
      unfold popHead2
      exact wrap_eq_emod (s.head - 1) (s.maxSize : Int) (by omega) (by omega) (by omega)

theorem claim3_pop_spec_witness :
    wf (pushAll Nat 2 [some 5, some 6, some 7]) ∧
    0 < (pushAll Nat 2 [some 5, some 6, some 7]).size ∧
    ((pop (pushAll Nat 2 [some 5, some 6, some 7])).1 =
        jsGet (pushAll Nat 2 [some 5, some 6, some 7]).buffer
          (pushAll Nat 2 [some 5, some 6, some 7]).head ∧
      jsGet (pop (pushAll Nat 2 [some 5, some 6, some 7])).2.buffer
          (pushAll Nat 2 [some 5, some 6, some 7]).head = none ∧
      (pop (pushAll Nat 2 [some 5, some 6, some 7])).2.size =
        (pushAll Nat 2 [some 5, some 6, some 7]).size - 1 ∧
      (pop (pushAll Nat 2 [some 5, some 6, some 7])).2.head =
        ((pushAll Nat 2 [some 5, some 6, some 7]).head - 1) %
          ((pushAll Nat 2 [some 5, some 6, some 7]).maxSize : Int) ∧
      (pop (pushAll Nat 2 [some 5, some 6, some 7])).2.maxSize =
        (pushAll Nat 2 [some 5, some 6, some 7]).maxSize) :=
  ⟨by decide, by decide,
    (claim3_pop_spec Nat (pushAll Nat 2 [some 5, some 6, some 7]) (by decide)).2 (by decide)⟩

/-- C10: `pop()` returns exactly the value `top()` (default offset 0) would
have returned immediately before, including the empty and zero-capacity cases
where both give absent. -/
theorem claim10_pop_eq_top (α : Type) (s : RingStore α) (hwf : wf s) :
    top s (JNum.num 0) = Except.ok (pop s).1 := by
  by_cases hsz : s.size = 0
  · rw [pop_noop s (Or.inr hsz)]
    simp only [top]
    rw [if_pos (by omega)]
  · have hc := (pop_char s hwf (by omega)).1
    simp only [top]
    rw [if_neg (by omega), if_neg (by omega), hc]

theorem claim10_pop_eq_top_witness :
    wf (pushAll Nat 2 [some 5, some 6, some 7]) ∧
    top (pushAll Nat 2 [some 5, some 6, some 7]) (JNum.num 0) =
      Except.ok (pop (pushAll Nat 2 [some 5, some 6, some 7])).1 :=
  ⟨by decide, claim10_pop_eq_top Nat (pushAll Nat 2 [some 5, some 6, some 7]) (by decide)⟩

/-- C4: for every well-formed store and `0 ≤ i < size`, `top(i)` returns the
same value as `bottom(size - 1 - i)` — the cyclic symmetry between the two
addressing directions, for wrapped and non-wrapped buffers alike. -/
theorem claim4_top_bottom (α : Type) (s : RingStore α) (hwf : wf s) (i : Nat)
    (hi : i < s.size) :
    top s (JNum.num i) = bottom s (JNum.num ((s.size : Int) - 1 - i)) := by
  have hj : ((s.size - 1 - i : Nat) : Int) = (s.size : Int) - 1 - (i : Int) := by omega
  rw [top_eq_iterIdx s hwf i hi, ← hj,
    bottom_eq_iterIdx s hwf (s.size - 1 - i) (by omega)]
  have hM : 0 < s.maxSize := by have := hwf.2.1; omega
  have hh0 : 0 ≤ s.head := hwf.2.2.1
  have hh1 := wf_head_lt s hwf hM
  have hsz := hwf.2.1
  congr 1
  congr 1
  simp only [iterIdx]
  split_ifs <;> omega

theorem claim4_top_bottom_witness :
    wf (pushAll Nat 2 [some 5, some 6, some 7]) ∧
    1 < (pushAll Nat 2 [some 5, some 6, some 7]).size ∧
    top (pushAll Nat 2 [some 5, some 6, some 7]) (JNum.num 1) =
      bottom (pushAll Nat 2 [some 5, some 6, some 7])
        (JNum.num (((pushAll Nat 2 [some 5, some 6, some 7]).size : Int) - 1 - 1)) :=
  ⟨by decide, by decide,
    claim4_top_bottom Nat (pushAll Nat 2 [some 5, some 6, some 7]) (by decide) 1 (by decide)⟩

/-- C5 as stated is false: on a non-empty store, `top` with a negative offset
skips the `index > 0` branch and reads the slot at `headIndex`, so it returns
the newest value rather than absent.  Concretely, after pushing 7 into a
capacity-1 store, `top(-1)` returns 7, not absent. -/
theorem claim5_counterexample :
    top (push (mkEmpty Nat 1) (some 7)) (JNum.num (-1)) = Except.ok (some 7) ∧
    (Except.ok (some 7) : Except JErr (Option Nat)) ≠ Except.ok none := by
  constructor
  · decide
  · decide

/-- C5 (amended): for every store and every negative numeric offset `k`,
`top(k)` does not raise; it returns absent when `size = 0 ∧ headIndex = 0`, and
otherwise returns the value in the slot at `headIndex` (the result of
`top(0)` on a non-empty store). -/
theorem claim5_top_negative (α : Type) (s : RingStore α) (k : Int) (hk : k < 0) :
    top s (JNum.num k) =
      Except.ok (if s.size = 0 ∧ s.head = 0 then none else jsGet s.buffer s.head) := by
  simp only [top]
  by_cases hg : s.size = 0 ∧ s.head = 0
  · rw [if_pos (Or.inl hg), if_pos hg]
  · rw [if_neg (by omega), if_neg hg, if_neg (by omega)]

theorem claim5_top_negative_witness :
    ((-2 : Int) < 0) ∧
    top (pushAll Nat 2 [some 5, some 6, some 7]) (JNum.num (-2)) =
      Except.ok (if (pushAll Nat 2 [some 5, some 6, some 7]).size = 0 ∧
          (pushAll Nat 2 [some 5, some 6, some 7]).head = 0 then none
        else jsGet (pushAll Nat 2 [some 5, some 6, some 7]).buffer
          (pushAll Nat 2 [some 5, some 6, some 7]).head) :=
  ⟨by decide,
    claim5_top_negative Nat (pushAll Nat 2 [some 5, some 6, some 7]) (-2) (by decide)⟩

/-- C8: setting the capacity raises exactly when the argument is a non-number
(`TypeError`), `NaN`, or negative (`RangeError`); a raising call leaves the
state unchanged; setting the current capacity is a no-op. -/
theorem claim8_setMaxSize_validation (α : Type) (s : RingStore α) (arg : JNum) :
    ((setMaxSize s arg).2 ≠ none ↔
      arg = JNum.notNum ∨ arg = JNum.nan ∨ ∃ n : Int, arg = JNum.num n ∧ n < 0) ∧
    ((setMaxSize s arg).2 ≠ none → (setMaxSize s arg).1 = s) ∧
    (arg = JNum.num (s.maxSize : Int) → setMaxSize s arg = (s, none)) := by
  cases arg with
  | notNum => exact ⟨by simp [setMaxSize], fun _ => rfl, by simp⟩
  | nan => exact ⟨by simp [setMaxSize], fun _ => rfl, by simp⟩
  | num n =>
    simp only [setMaxSize]
    by_cases hn : n < 0
    · rw [if_pos hn]
      refine ⟨?_, fun _ => rfl, ?_⟩
      · simp only [ne_eq, Option.some_ne_none, not_false_eq_true, true_iff]
        exact Or.inr (Or.inr ⟨n, rfl, hn⟩)
      · intro h
        injection h with h2
        omega
    · rw [if_neg hn]
      by_cases he : n = (s.maxSize : Int)
      · rw [if_pos he]
        refine ⟨?_, by simp, fun _ => rfl⟩
        simp only [ne_eq, not_true_eq_false, false_iff, JNum.num.injEq]
        push_neg
        exact ⟨by simp, by simp, fun m hm => by omega⟩
      · rw [if_neg he]
        refine ⟨?_, by simp, ?_⟩
        · simp only [ne_eq, not_true_eq_false, false_iff, JNum.num.injEq]
          push_neg
          exact ⟨by simp, by simp, fun m hm => by omega⟩
        · intro h
          injection h with h2
          exact absurd h2 he

/-- C9: for every store, every value (including the absent sentinel), and
every numeric offset, `poke` succeeds without raising, leaves `size`,
`headIndex`, `maxSize`, and the backing length unchanged, and changes the
contents of at most one backing slot. -/
theorem claim9_poke_frame (α : Type) (s : RingStore α) (v : Option α) (i : Int) :
    ∃ s2 : RingStore α, poke s v (JNum.num i) = Except.ok s2 ∧
      s2.size = s.size ∧ s2.head = s.head ∧ s2.maxSize = s.maxSize ∧
      s2.buffer.length = s.buffer.length ∧
      ∃ j : Int, ∀ k : Int, k ≠ j → jsGet s2.buffer k = jsGet s.buffer k := by
  simp only [poke, calculateGetIndex]
  by_cases hg : (s.size = 0 ∧ s.head = 0) ∨ (s.size : Int) ≤ i ∨ i < 0
  · rw [if_pos hg]
    exact ⟨s, rfl, rfl, rfl, rfl, rfl, 0, fun k _ => rfl⟩
  · rw [if_neg hg]
    dsimp only
    refine ⟨_, rfl, rfl, rfl, rfl, ?_, ?_⟩
    · split
      · exact length_jsSet ..
      · exact length_jsSet ..
    · split
      · exact ⟨_, fun k hk => jsGet_jsSet_ne _ _ _ _ hk⟩
      · exact ⟨_, fun k hk => jsGet_jsSet_ne _ _ _ _ hk⟩

/-- C7: the forward traversal yields exactly the `size` stored values from
bottom (oldest) to top (newest) — element `k` equals `bottom(k)` — and the
reverse traversal yields them from top to bottom — element `k` equals
`top(k)`; the two yielded sequences are exact reverses of each other. -/
theorem claim7_traversal (α : Type) (s : RingStore α) (hwf : wf s) :
    (iterList s false 0).length = s.size ∧
    (∀ k : Nat, k < s.size →
      bottom s (JNum.num k) = Except.ok ((iterList s false 0).getD k none)) ∧
    (∀ k : Nat, k < s.size →
      top s (JNum.num k) = Except.ok ((iterList s true 0).getD k none)) ∧
    iterList s true 0 = (iterList s false 0).reverse := by
  refine ⟨iterList_length s false hwf, ?_, ?_, ?_⟩
  · intro k hk
    rw [bottom_eq_iterIdx s hwf k hk, iterList_getD s false hwf k hk]
  · intro k hk
    rw [top_eq_iterIdx s hwf k hk, iterList_getD s true hwf k hk]
  · rw [iterList_eq s true hwf, iterList_eq s false hwf]
    have hM : 0 < s.maxSize ∨ s.size = 0 := by
      have := hwf.2.1
      omega
    apply List.ext_getElem
    · simp
    · intro k h1 h2
      have hk : k < s.size := by simpa using h1
      have hMpos : 0 < s.maxSize := by omega
      have hh0 : 0 ≤ s.head := hwf.2.2.1
      have hh1 := wf_head_lt s hwf hMpos
      have hsz := hwf.2.1
      rw [List.getElem_reverse]
      simp only [List.getElem_map, List.getElem_range, List.length_map, List.length_range]
      congr 1
      simp only [iterIdx]
      split_ifs <;> omega

theorem claim7_traversal_witness :
    wf (pushAll Nat 2 [some 5, some 6, some 7]) ∧
    ((iterList (pushAll Nat 2 [some 5, some 6, some 7]) false 0).length =
        (pushAll Nat 2 [some 5, some 6, some 7]).size ∧
      (∀ k : Nat, k < (pushAll Nat 2 [some 5, some 6, some 7]).size →
        bottom (pushAll Nat 2 [some 5, some 6, some 7]) (JNum.num k) =
          Except.ok ((iterList (pushAll Nat 2 [some 5, some 6, some 7]) false 0).getD
            k none)) ∧
      (∀ k : Nat, k < (pushAll Nat 2 [some 5, some 6, some 7]).size →
        top (pushAll Nat 2 [some 5, some 6, some 7]) (JNum.num k) =
          Except.ok ((iterList (pushAll Nat 2 [some 5, some 6, some 7]) true 0).getD
            k none)) ∧
      iterList (pushAll Nat 2 [some 5, some 6, some 7]) true 0 =
        (iterList (pushAll Nat 2 [some 5, some 6, some 7]) false 0).reverse) :=
  ⟨by decide, claim7_traversal Nat (pushAll Nat 2 [some 5, some 6, some 7]) (by decide)⟩

/-- C6: on a non-full store, `push(v)` immediately followed by `pop()` leaves
the logical contents unchanged: the size and the oldest-to-newest forward
traversal are those of the original store (the head index itself may differ
when the store was empty). -/
theorem claim6_push_pop (α : Type) (s : RingStore α) (v : Option α) (hwf : wf s)
    (hlt : s.size < s.maxSize) :
    (pop (push s v)).2.size = s.size ∧
    iterList (pop (push s v)).2 false 0 = iterList s false 0 := by
  have hM : 0 < s.maxSize := by omega
  obtain ⟨c1, c2, c3, c4, c5⟩ := push_char s v hwf hM
  have hwf1 : wf (push s v) := push_wf s v hwf
  have hsz1 : 0 < (push s v).size := by rw [c3]; omega
  obtain ⟨d1, d2, d3, d4, d5, ⟨db0, db1⟩, d6⟩ := pop_char (push s v) hwf1 hsz1
  have hwf2 : wf (pop (push s v)).2 := pop_wf _ hwf1
  have hsize2 : (pop (push s v)).2.size = s.size := by rw [d4, c3]; omega
  have hh0 : 0 ≤ s.head := hwf.2.2.1
  have hh1 := wf_head_lt s hwf hM
  refine ⟨hsize2, ?_⟩
  rw [iterList_eq _ false hwf2, iterList_eq _ false hwf]
  apply List.ext_getElem
  · simp [hsize2]
  · intro k h1 h2
    have hk : k < s.size := by
      have := h1
      simp only [List.length_map, List.length_range] at this
      omega
    have hszpos : 0 < s.size := by omega
    have hhead2 : (pop (push s v)).2.head = s.head := by
      rw [d5]
      unfold popHead2
      rw [c4, c1]
      unfold pushHead2
      split_ifs <;> omega
    simp only [List.getElem_map, List.getElem_range]
    have hidx : iterIdx (pop (push s v)).2 false k = iterIdx s false k := by
      simp only [iterIdx]
      rw [hhead2, hsize2, d2, c1]
    rw [hidx]
    have hne : iterIdx s false k ≠ pushHead2 s := by
      simp only [iterIdx, pushHead2]
      split_ifs <;> omega
    rw [d6 _, c4, if_neg hne, c5 _, if_neg hne]

theorem claim6_push_pop_witness :
    wf (pushAll Nat 3 [some 1, some 2]) ∧
    (pushAll Nat 3 [some 1, some 2]).size < (pushAll Nat 3 [some 1, some 2]).maxSize ∧
    ((pop (push (pushAll Nat 3 [some 1, some 2]) (some 9))).2.size =
        (pushAll Nat 3 [some 1, some 2]).size ∧
      iterList (pop (push (pushAll Nat 3 [some 1, some 2]) (some 9))).2 false 0 =
        iterList (pushAll Nat 3 [some 1, some 2]) false 0) :=
  ⟨by decide, by decide,
    claim6_push_pop Nat (pushAll Nat 3 [some 1, some 2]) (some 9) (by decide) (by decide)⟩

/-- C2: setting the capacity to a valid `n` different from the current
capacity succeeds (no error), and the store then holds exactly the newest
`min(size, n)` values of the original logical sequence, in oldest-first order
under forward traversal: shrinking keeps the newest `n` values, growing keeps
everything in order. -/
theorem claim2_resize (α : Type) (s : RingStore α) (n : Nat) (hwf : wf s)
    (hne : n ≠ s.maxSize) :
    (setMaxSize s (JNum.num n)).2 = none ∧
    (setMaxSize s (JNum.num n)).1.size = min s.size n ∧
    iterList (setMaxSize s (JNum.num n)).1 false 0 =
      (iterList s false 0).drop (s.size - n) := by
  have hres : setMaxSize s (JNum.num n) = (pushAll α n (iterList s false 0), none) := by
    simp only [setMaxSize, pushAll]
    rw [if_neg (by omega), if_neg (by omega)]
    rw [Int.toNat_natCast]
  rw [hres]
  have hlen : (iterList s false 0).length = s.size := iterList_length s false hwf
  refine ⟨rfl, ?_, ?_⟩
  · dsimp only
    rw [pushAll_size, hlen]
  · dsimp only
    have hwf2 := pushAll_wf n (iterList s false 0)
    rw [iterList_eq _ false hwf2]
    apply List.ext_getElem
    · simp only [List.length_map, List.length_range, List.length_drop]
      rw [pushAll_size, hlen]
      omega
    · intro k h1 h2
      have hk : k < (pushAll α n (iterList s false 0)).size := by simpa using h1
      simp only [List.getElem_map, List.getElem_range]
      rw [pushAll_get n (iterList s false 0) k hk]
      rw [List.getElem_drop]
      have hk3 : k < min s.size n := by
        rw [pushAll_size, hlen] at hk
        omega
      have hk2 : (iterList s false 0).length - (pushAll α n (iterList s false 0)).size + k
          < (iterList s false 0).length := by
        rw [pushAll_size, hlen]
        omega
      rw [List.getD_eq_getElem _ _ hk2]
      congr 1
      rw [pushAll_size, hlen]
      omega

theorem claim2_resize_witness :
    wf (pushAll Nat 3 [some 1, some 2, some 3, some 4]) ∧
    2 ≠ (pushAll Nat 3 [some 1, some 2, some 3, some 4]).maxSize ∧
    ((setMaxSize (pushAll Nat 3 [some 1, some 2, some 3, some 4]) (JNum.num 2)).2 =
        none ∧
      (setMaxSize (pushAll Nat 3 [some 1, some 2, some 3, some 4]) (JNum.num 2)).1.size =
        min (pushAll Nat 3 [some 1, some 2, some 3, some 4]).size 2 ∧
      iterList (setMaxSize (pushAll Nat 3 [some 1, some 2, some 3, some 4])
          (JNum.num 2)).1 false 0 =
        (iterList (pushAll Nat 3 [some 1, some 2, some 3, some 4]) false 0).drop
          ((pushAll Nat 3 [some 1, some 2, some 3, some 4]).size - 2)) :=
  ⟨by decide, by decide,
    claim2_resize Nat (pushAll Nat 3 [some 1, some 2, some 3, some 4]) 2
      (by decide) (by decide)⟩
